import Mathlib

/-!
Shallow embedding of `src/decoupling_core.cpp` (package UStatDecouple).

The C++ file exports two functions:

* `compute_decoupled_sum(List x, List y, Function kernel_function, bool symmetric)`
  runs nested loops driven by `n = x.size()`, calls the R kernel on
  `(x[i], y[j])` for every enumerated index pair, accumulates `total` and
  `count`, and returns `total / count`.
* `compute_multiple_decoupled_sums(List x, List y_list, Function kernel_function,
  bool symmetric)` fills `results[b]` with the single-aggregate value for each
  element of `y_list` in order.

Modelling decisions:

* R numeric values are modelled by `ℚ` (the claims under study are structural
  and exact; floating-point rounding is not at issue).  The one place IEEE
  semantics matters is `total / count` with `count == 0`: the loops never ran,
  so `total` is still `0.0` and the expression is `0.0 / 0`, the IEEE quiet
  not-a-number.  The result type `RVal` makes that outcome explicit.
* The R kernel can signal an error; through Rcpp this unwinds the C++ frame
  and aborts the whole call.  The kernel is therefore modelled as returning
  `Except ε ℚ` for an opaque error type `ε`, and both entry points return
  `Except ε _`, the error being the kernel's own error value passed through.
* `Rcpp::List::operator[]` performs no bounds check; element access is
  modelled by `List.getD` with an arbitrary inhabitant standing for whatever
  an out-of-range read yields.
* The nested `for` loops are translated, as usual, into a fold over the list
  of index pairs in exact iteration order (`pairSeq`); `runPairs` additionally
  records the pairs at which the kernel was actually invoked, so that claims
  about invocation counts and ordering can be stated.
-/

/-- Value of the `double`-returning C++ entry point: either an ordinary finite
numeric value (modelled exactly by a rational) or the IEEE quiet not-a-number
produced by the division `0.0 / 0`. -/
inductive RVal where
  | num : ℚ → RVal
  | nan : RVal
deriving DecidableEq, Repr

/-- Iteration sequence of the nested loops of `compute_decoupled_sum`: the
symmetric branch is `for (i = 0; i < n; i++) for (j = i + 1; j < n; j++)`, the
asymmetric branch is
`for (i = 0; i < n; i++) for (j = 0; j < n; j++) if (i != j)`. -/
def pairSeq (symmetric : Bool) (n : ℕ) : List (ℕ × ℕ) :=
  if symmetric then
    (List.range n).flatMap fun i => (List.range' (i + 1) (n - (i + 1))).map fun j => (i, j)
  else
    (List.range n).flatMap fun i => ((List.range n).filter fun j => i != j).map fun j => (i, j)

/-- Accumulation along the iteration sequence, mirroring
`double value = as<double>(kernel_function(x[i], y[j])); total += value; count++;`
inside the loops of `compute_decoupled_sum`.  A kernel error aborts the walk
(the R error unwinds through the C++ frame).  The first component records the
index pairs at which the kernel was actually invoked. -/
def runPairs {ε : Type} (K : ℕ → ℕ → Except ε ℚ) :
    List (ℕ × ℕ) → ℚ → ℕ → List (ℕ × ℕ) × Except ε (ℚ × ℕ)
  | [], total, count => ([], Except.ok (total, count))
  | (i, j) :: ps, total, count =>
    match K i j with
    | Except.error e => ([(i, j)], Except.error e)
    | Except.ok v =>
      let r := runPairs K ps (total + v) (count + 1)
      ((i, j) :: r.1, r.2)

/-- One kernel invocation on items, `kernel_function(x[i], y[j])`; indexing is
the unchecked `Rcpp::List::operator[]`, modelled by `List.getD` with the
inhabitant as the arbitrary value an out-of-range read would yield. -/
def itemK {α ε : Type} [Inhabited α] (K : α → α → Except ε ℚ) (x y : List α)
    (i j : ℕ) : Except ε ℚ :=
  K (x.getD i default) (y.getD j default)

/-- Shallow embedding of `compute_decoupled_sum` from `src/decoupling_core.cpp`.
`n` is `x.size()` and drives both loop bounds in both branches.  When the
loops ran zero times, `count` is `0` and `total` is still `0.0`, so the C++
`return total / count` evaluates `0.0 / 0`, i.e. the quiet not-a-number. -/
def compute_decoupled_sum {α ε : Type} [Inhabited α] (x y : List α)
    (K : α → α → Except ε ℚ) (symmetric : Bool) : Except ε RVal :=
  match (runPairs (itemK K x y) (pairSeq symmetric x.length) 0 0).2 with
  | Except.error e => Except.error e
  | Except.ok (total, count) =>
      Except.ok (if count = 0 then RVal.nan else RVal.num (total / (count : ℚ)))

/-- Index pairs at which `compute_decoupled_sum` actually invokes the kernel,
in invocation order. -/
def kernelTrace {α ε : Type} [Inhabited α] (x y : List α)
    (K : α → α → Except ε ℚ) (symmetric : Bool) : List (ℕ × ℕ) :=
  (runPairs (itemK K x y) (pairSeq symmetric x.length) 0 0).1

/-- Shallow embedding of `compute_multiple_decoupled_sums` from
`src/decoupling_core.cpp`: `results[b] = compute_decoupled_sum(x, y_list[b], ...)`
for `b = 0 .. B-1`; an error signalled during any element unwinds past the
loop, so nothing is returned for the whole batch in that case. -/
def compute_multiple_decoupled_sums {α ε : Type} [Inhabited α] (x : List α)
    (y_list : List (List α)) (K : α → α → Except ε ℚ) (symmetric : Bool) :
    Except ε (List RVal) :=
  y_list.mapM fun y => compute_decoupled_sum x y K symmetric

/-- An always-succeeding kernel built from a total scoring function. -/
def pureK {α : Type} (k : α → α → ℚ) : α → α → Except Unit ℚ :=
  fun a b => Except.ok (k a b)

/-- A concrete fallible kernel for the error-path analyses: it signals an
error whenever its second argument is zero, with an error value that carries
no index information (as an R error raised inside the kernel carries none). -/
def failK : ℚ → ℚ → Except Unit ℚ :=
  fun a b => if b = 0 then Except.error () else Except.ok (a * b)

/-! Basic facts about `runPairs`. -/

/-- When the kernel succeeds on every enumerated pair, the walk visits the
whole iteration sequence, invoking the kernel once per element, and returns
the accumulated sum and count. -/
theorem runPairs_ok {ε : Type} (K : ℕ → ℕ → Except ε ℚ) (f : ℕ → ℕ → ℚ)
    (ps : List (ℕ × ℕ)) (hK : ∀ p ∈ ps, K p.1 p.2 = Except.ok (f p.1 p.2)) :
    ∀ t c, runPairs K ps t c =
      (ps, Except.ok (t + (ps.map fun p => f p.1 p.2).sum, c + ps.length)) := by
  induction ps with
  | nil => intro t c; simp [runPairs]
  | cons p ps ih =>
    intro t c
    obtain ⟨i, j⟩ := p
    have hij : K i j = Except.ok (f i j) := hK (i, j) (List.mem_cons_self _ _)
    have hrest : ∀ q ∈ ps, K q.1 q.2 = Except.ok (f q.1 q.2) :=
      fun q hq => hK q (List.mem_cons_of_mem _ hq)
    simp only [runPairs, hij, ih hrest, List.map_cons, List.sum_cons, List.length_cons]
    have h1 : t + f i j + (List.map (fun p => f p.1 p.2) ps).sum
        = t + (f i j + (List.map (fun p => f p.1 p.2) ps).sum) := by ring
    have h2 : c + 1 + ps.length = c + (ps.length + 1) := by omega
    rw [h1, h2]

/-- The walk only looks at the kernel on pairs of the iteration sequence. -/
theorem runPairs_congr {ε : Type} (K₁ K₂ : ℕ → ℕ → Except ε ℚ)
    (ps : List (ℕ × ℕ)) (h : ∀ p ∈ ps, K₁ p.1 p.2 = K₂ p.1 p.2) :
    ∀ t c, runPairs K₁ ps t c = runPairs K₂ ps t c := by
  induction ps with
  | nil => intro t c; rfl
  | cons p ps ih =>
    intro t c
    obtain ⟨i, j⟩ := p
    have hij : K₁ i j = K₂ i j := h (i, j) (List.mem_cons_self _ _)
    have hrest : ∀ q ∈ ps, K₁ q.1 q.2 = K₂ q.1 q.2 :=
      fun q hq => h q (List.mem_cons_of_mem _ hq)
    simp only [runPairs, hij]
    cases K₂ i j with
    | error e => rfl
    | ok v => simp only [ih hrest]

/-- Every pair the walk actually invoked lies in the iteration sequence. -/
theorem runPairs_fst_subset {ε : Type} (K : ℕ → ℕ → Except ε ℚ)
    (ps : List (ℕ × ℕ)) :
    ∀ t c, ∀ p ∈ (runPairs K ps t c).1, p ∈ ps := by
  induction ps with
  | nil => intro t c p hp; simp [runPairs] at hp
  | cons q ps ih =>
    intro t c p hp
    obtain ⟨i, j⟩ := q
    simp only [runPairs] at hp
    cases hK : K i j with
    | error e =>
      rw [hK] at hp
      simp only [List.mem_singleton] at hp
      exact hp ▸ List.mem_cons_self _ _
    | ok v =>
      rw [hK] at hp
      simp only [List.mem_cons] at hp
      rcases hp with rfl | hp
      · exact List.mem_cons_self _ _
      · exact List.mem_cons_of_mem _ (ih _ _ p hp)

/-- A failed walk splits the iteration sequence: the pairs before the failure
all succeeded, the failing pair produced exactly the surfaced error, the
invoked pairs end at the failing pair, and no later pair was visited. -/
theorem runPairs_error_decomp {ε : Type} (K : ℕ → ℕ → Except ε ℚ)
    (ps : List (ℕ × ℕ)) :
    ∀ t c e tr, runPairs K ps t c = (tr, Except.error e) →
      ∃ ps₁ i j ps₂, ps = ps₁ ++ (i, j) :: ps₂ ∧ tr = ps₁ ++ [(i, j)] ∧
        K i j = Except.error e ∧ ∀ p ∈ ps₁, ∃ v, K p.1 p.2 = Except.ok v := by
  induction ps with
  | nil =>
    intro t c e tr h
    simp [runPairs] at h
  | cons q ps ih =>
    intro t c e tr h
    obtain ⟨i, j⟩ := q
    simp only [runPairs] at h
    cases hK : K i j with
    | error e' =>
      rw [hK, Prod.mk.injEq] at h
      obtain ⟨h1, h2⟩ := h
      injection h2 with h3
      refine ⟨[], i, j, ps, by simp, ?_, by rw [hK, h3], by simp⟩
      rw [← h1]
      rfl
    | ok v =>
      rw [hK, Prod.mk.injEq] at h
      obtain ⟨h1, h2⟩ := h
      have hr : runPairs K ps (t + v) (c + 1) =
          ((runPairs K ps (t + v) (c + 1)).1, Except.error e) := by
        rw [← h2]
      obtain ⟨ps₁, i', j', ps₂, hps, htr', hK', hok⟩ := ih (t + v) (c + 1) e _ hr
      refine ⟨(i, j) :: ps₁, i', j', ps₂, by rw [hps]; rfl, ?_, hK', ?_⟩
      · rw [← h1, htr']
        rfl
      · intro p hp
        rcases List.mem_cons.mp hp with rfl | hp
        · exact ⟨v, hK⟩
        · exact hok p hp

/-! Facts about the iteration sequences. -/

/-- The symmetric branch of the iteration sequence, spelled out. -/
theorem pairSeq_true (n : ℕ) : pairSeq true n =
    (List.range n).flatMap fun i =>
      (List.range' (i + 1) (n - (i + 1))).map fun j => (i, j) := rfl

/-- The asymmetric branch of the iteration sequence, spelled out. -/
theorem pairSeq_false (n : ℕ) : pairSeq false n =
    (List.range n).flatMap fun i =>
      ((List.range n).filter fun j => i != j).map fun j => (i, j) := rfl

/-- Membership in the symmetric iteration sequence: exactly the
upper-triangular pairs below the bound. -/
theorem mem_pairSeq_true {n : ℕ} {p : ℕ × ℕ} :
    p ∈ pairSeq true n ↔ p.1 < p.2 ∧ p.2 < n := by
  obtain ⟨i, j⟩ := p
  simp only [pairSeq_true, List.mem_flatMap, List.mem_map, List.mem_range,
    List.mem_range'_1, Prod.mk.injEq]
  constructor
  · rintro ⟨a, ha, b, ⟨hb1, hb2⟩, rfl, rfl⟩
    omega
  · rintro ⟨hij, hjn⟩
    exact ⟨i, by omega, j, ⟨by omega, by omega⟩, rfl, rfl⟩

/-- Membership in the asymmetric iteration sequence: exactly the ordered pairs
of distinct indices below the bound. -/
theorem mem_pairSeq_false {n : ℕ} {p : ℕ × ℕ} :
    p ∈ pairSeq false n ↔ p.1 < n ∧ p.2 < n ∧ p.1 ≠ p.2 := by
  obtain ⟨i, j⟩ := p
  simp only [pairSeq_false, List.mem_flatMap, List.mem_map,
    List.mem_filter, List.mem_range, bne_iff_ne, Prod.mk.injEq, ne_eq]
  constructor
  · rintro ⟨a, ha, b, ⟨⟨hb, hab⟩, rfl, rfl⟩⟩
    exact ⟨ha, hb, hab⟩
  · rintro ⟨hi, hj, hij⟩
    exact ⟨i, hi, j, ⟨⟨hj, hij⟩, rfl, rfl⟩⟩

/-- Twice the length of the symmetric iteration sequence is `n·(n−1)`. -/
theorem length_pairSeq_true_mul_two (n : ℕ) :
    (pairSeq true n).length * 2 = n * (n - 1) := by
  have h : (pairSeq true n).length = ∑ i ∈ Finset.range n, (n - 1 - i) := by
    rw [pairSeq_true, List.length_flatMap]
    have : ((List.range n).map (List.length ∘ fun i =>
        (List.range' (i + 1) (n - (i + 1))).map fun j => (i, j))).sum
        = ((List.range n).map fun i => n - 1 - i).sum := by
      congr 1
      apply List.map_congr_left
      intro i _
      simp [List.length_range']
      omega
    rw [this]
    rfl
  rw [h, Finset.sum_range_reflect (fun i => i) n]
  exact Finset.sum_range_id_mul_two n

/-- Length of the symmetric iteration sequence: the upper-triangular count. -/
theorem length_pairSeq_true (n : ℕ) :
    (pairSeq true n).length = n * (n - 1) / 2 := by
  have := length_pairSeq_true_mul_two n
  omega

/-- The inner filter of the asymmetric loop keeps all but one index. -/
theorem length_filter_ne {n i : ℕ} (hi : i < n) :
    ((List.range n).filter fun j => i != j).length = n - 1 := by
  have hcong : (List.range n).filter (fun j => i != j)
      = (List.range n).filter (fun j => j != i) := by
    apply List.filter_congr
    intro j _
    rw [Bool.eq_iff_iff]
    simp only [bne_iff_ne, ne_eq]
    omega
  rw [hcong, ← List.Nodup.erase_eq_filter (List.nodup_range n) i]
  rw [List.length_erase_of_mem (List.mem_range.mpr hi), List.length_range]

/-- Length of the asymmetric iteration sequence: all ordered distinct pairs. -/
theorem length_pairSeq_false (n : ℕ) :
    (pairSeq false n).length = n * (n - 1) := by
  rw [pairSeq_false, List.length_flatMap]
  have : ((List.range n).map (List.length ∘ fun i =>
      ((List.range n).filter fun j => i != j).map fun j => (i, j))).sum
      = ((List.range n).map fun _ => n - 1).sum := by
    congr 1
    apply List.map_congr_left
    intro i hi
    simp [length_filter_ne (List.mem_range.mp hi)]
  rw [this, List.map_const', List.sum_replicate, smul_eq_mul, List.length_range,
    Nat.mul_comm]

/-- A flatMap over ascending outer indices is pairwise-ordered when each inner
list is, inner elements determine their outer index, and the order relates any
two elements with increasing outer index. -/
theorem pairwise_flatMap_aux {R : ℕ × ℕ → ℕ × ℕ → Prop} {f : ℕ → List (ℕ × ℕ)}
    (hfst : ∀ i, ∀ p ∈ f i, p.1 = i)
    (hinner : ∀ i, (f i).Pairwise R)
    (hcross : ∀ p q : ℕ × ℕ, p.1 < q.1 → R p q) :
    ∀ l : List ℕ, l.Pairwise (· < ·) → (l.flatMap f).Pairwise R := by
  intro l
  induction l with
  | nil => intro _; simp
  | cons a l ih =>
    intro hl
    rw [List.pairwise_cons] at hl
    rw [List.flatMap_cons, List.pairwise_append]
    refine ⟨hinner a, ih hl.2, ?_⟩
    intro p hp q hq
    obtain ⟨b, hb, hqb⟩ := List.mem_flatMap.mp hq
    apply hcross
    rw [hfst a p hp, hfst b q hqb]
    exact hl.1 b hb

/-- The symmetric iteration sequence has no repeated pair. -/
theorem nodup_pairSeq_true (n : ℕ) : (pairSeq true n).Nodup := by
  rw [pairSeq_true, List.nodup_flatMap]
  constructor
  · intro i _
    exact (List.nodup_range' _ _).map (fun a b h => (Prod.mk.injEq .. ▸ h).2)
  · have : ∀ a b : ℕ, a ≠ b →
        ((List.range' (a + 1) (n - (a + 1))).map fun j => (a, j)).Disjoint
          ((List.range' (b + 1) (n - (b + 1))).map fun j => (b, j)) := by
      intro a b hab p hpa hpb
      obtain ⟨j₁, _, h₁⟩ := List.mem_map.mp hpa
      obtain ⟨j₂, _, h₂⟩ := List.mem_map.mp hpb
      exact hab ((Prod.mk.injEq .. ▸ h₁.trans h₂.symm).1)
    exact (List.pairwise_lt_range n).imp (fun h => this _ _ (Nat.ne_of_lt h))

/-- The asymmetric iteration sequence has no repeated pair. -/
theorem nodup_pairSeq_false (n : ℕ) : (pairSeq false n).Nodup := by
  rw [pairSeq_false, List.nodup_flatMap]
  constructor
  · intro i _
    exact ((List.nodup_range n).filter _).map (fun a b h => (Prod.mk.injEq .. ▸ h).2)
  · have : ∀ a b : ℕ, a ≠ b →
        (((List.range n).filter fun j => a != j).map fun j => (a, j)).Disjoint
          (((List.range n).filter fun j => b != j).map fun j => (b, j)) := by
      intro a b hab p hpa hpb
      obtain ⟨j₁, _, h₁⟩ := List.mem_map.mp hpa
      obtain ⟨j₂, _, h₂⟩ := List.mem_map.mp hpb
      exact hab ((Prod.mk.injEq .. ▸ h₁.trans h₂.symm).1)
    exact (List.pairwise_lt_range n).imp (fun h => this _ _ (Nat.ne_of_lt h))

/-- Both iteration sequences are emitted with the outer index ascending and,
within one outer index, the inner index ascending. -/
theorem pairwise_lex_pairSeq (symmetric : Bool) (n : ℕ) :
    (pairSeq symmetric n).Pairwise
      (fun p q => p.1 < q.1 ∨ (p.1 = q.1 ∧ p.2 < q.2)) := by
  cases symmetric
  · rw [pairSeq_false]
    apply pairwise_flatMap_aux
    · intro i p hp
      obtain ⟨j, _, h⟩ := List.mem_map.mp hp
      exact (Prod.mk.injEq .. ▸ h).1.symm
    · intro i
      refine List.Pairwise.map _ ?_ (((List.pairwise_lt_range n).filter _))
      intro a b hab
      exact Or.inr ⟨rfl, hab⟩
    · intro p q h
      exact Or.inl h
    · exact List.pairwise_lt_range n
  · rw [pairSeq_true]
    apply pairwise_flatMap_aux
    · intro i p hp
      obtain ⟨j, _, h⟩ := List.mem_map.mp hp
      exact (Prod.mk.injEq .. ▸ h).1.symm
    · intro i
      refine List.Pairwise.map _ ?_ (List.pairwise_lt_range' _ _)
      intro a b hab
      exact Or.inr ⟨rfl, hab⟩
    · intro p q h
      exact Or.inl h
    · exact List.pairwise_lt_range n

/-! Evaluation of the embedded aggregate for a total kernel. -/

/-- For a total kernel the invoked pairs are the whole iteration sequence. -/
theorem kernelTrace_pure {α : Type} [Inhabited α] (x y : List α) (k : α → α → ℚ)
    (symmetric : Bool) :
    kernelTrace x y (pureK k) symmetric = pairSeq symmetric x.length := by
  unfold kernelTrace
  rw [runPairs_ok (itemK (pureK k) x y)
    (fun i j => k (x.getD i default) (y.getD j default)) _ (fun p _ => rfl) 0 0]

/-- For a total kernel, the embedded aggregate is the sum of the kernel values
over the whole iteration sequence divided by its length, and the quiet
not-a-number when the sequence is empty. -/
theorem compute_pure_eq {α : Type} [Inhabited α] (x y : List α) (k : α → α → ℚ)
    (symmetric : Bool) :
    compute_decoupled_sum x y (pureK k) symmetric =
      Except.ok (if (pairSeq symmetric x.length).length = 0 then RVal.nan
        else RVal.num
          (((pairSeq symmetric x.length).map fun p =>
              k (x.getD p.1 default) (y.getD p.2 default)).sum /
            ((pairSeq symmetric x.length).length : ℚ))) := by
  unfold compute_decoupled_sum
  rw [runPairs_ok (itemK (pureK k) x y)
    (fun i j => k (x.getD i default) (y.getD j default)) _ (fun p _ => rfl) 0 0]
  simp only [zero_add]

/-- With fewer than two left-hand elements both iteration sequences are empty. -/
theorem pairSeq_eq_nil (symmetric : Bool) {n : ℕ} (h : n < 2) :
    pairSeq symmetric n = [] := by
  have h0 : n = 0 ∨ n = 1 := by omega
  rcases h0 with rfl | rfl <;> cases symmetric <;> rfl

/-- The asymmetric iteration sequence is, up to order, the symmetric sequence
together with its index-swapped copy. -/
theorem pairSeq_false_perm (n : ℕ) :
    (pairSeq false n).Perm
      (pairSeq true n ++ (pairSeq true n).map fun p => (p.2, p.1)) := by
  apply List.perm_of_nodup_nodup_toFinset_eq (nodup_pairSeq_false n)
  · rw [List.nodup_append]
    refine ⟨nodup_pairSeq_true n, (nodup_pairSeq_true n).map ?_, ?_⟩
    · intro p q h
      obtain ⟨a, b⟩ := p
      obtain ⟨c, d⟩ := q
      simp only [Prod.mk.injEq] at h
      simp [h.1, h.2]
    · intro p hp hq
      obtain ⟨h1, _⟩ := mem_pairSeq_true.mp hp
      obtain ⟨q, hq', hpq⟩ := List.mem_map.mp hq
      obtain ⟨h2, _⟩ := mem_pairSeq_true.mp hq'
      rw [← hpq] at h1
      simp only at h1
      omega
  · ext p
    obtain ⟨p1, p2⟩ := p
    simp only [List.mem_toFinset, mem_pairSeq_false, List.mem_append, List.mem_map,
      mem_pairSeq_true, ne_eq]
    constructor
    · rintro ⟨h1, h2, h3⟩
      rcases Nat.lt_or_ge p1 p2 with h | h
      · exact Or.inl ⟨h, h2⟩
      · exact Or.inr ⟨(p2, p1), ⟨by omega, h1⟩, rfl⟩
    · rintro (⟨h1, h2⟩ | ⟨⟨q1, q2⟩, ⟨hq1, hq2⟩, hpq⟩)
      · exact ⟨by omega, h2, by omega⟩
      · simp only [Prod.mk.injEq] at hpq
        obtain ⟨rfl, rfl⟩ := hpq
        exact ⟨hq2, by omega, by omega⟩

/-- A list without duplicates counts each of its members exactly once. -/
theorem count_eq_one_of_nodup_mem {α : Type} [BEq α] [LawfulBEq α] {l : List α}
    {a : α} (hn : l.Nodup) (hm : a ∈ l) : l.count a = 1 := by
  induction l with
  | nil => simp at hm
  | cons b l ih =>
    rw [List.nodup_cons] at hn
    rcases List.mem_cons.mp hm with rfl | hm'
    · rw [List.count_cons_self, List.count_eq_zero.mpr hn.1]
    · have hab : a ≠ b := fun h => hn.1 (h ▸ hm')
      rw [List.count_cons_of_ne hab]
      exact ih hn.2 hm'

/-! Claim theorems. -/

/-- Claim C1 (code behaviour at the degenerate input): for fewer than two
left-hand elements the code does NOT fail with an `InsufficientPairs` error —
no such error exists in `compute_decoupled_sum`.  The loops run zero times,
the kernel is never invoked, and the function divides `0.0` by the zero pair
counter, returning the quiet not-a-number.  This contradicts the claim, which
mandates an explicit error and forbids attempting the division. -/
theorem insufficient_pairs_yields_nan {α ε : Type} [Inhabited α] (x y : List α)
    (K : α → α → Except ε ℚ) (symmetric : Bool) (h : x.length < 2) :
    compute_decoupled_sum x y K symmetric = Except.ok RVal.nan ∧
    kernelTrace x y K symmetric = [] := by
  unfold compute_decoupled_sum kernelTrace
  rw [pairSeq_eq_nil symmetric h]
  exact ⟨rfl, rfl⟩

/-- Witness for C1 at the concrete degenerate input `X = [1]`, `Y = [10]`. -/
theorem insufficient_pairs_yields_nan_witness :
    compute_decoupled_sum [(1:ℚ)] [10] (pureK fun a b => a + b) true
        = Except.ok RVal.nan ∧
    kernelTrace [(1:ℚ)] [10] (pureK fun a b => a + b) true = [] :=
  insufficient_pairs_yields_nan [(1:ℚ)] [10] (pureK fun a b => a + b) true (by decide)

/-- Claim C2: in symmetric mode, with equal-length collections of length
`n ≥ 2` and a total kernel, the kernel is invoked exactly once on each pair
`(i, j)` with `i < j < n`, only on such pairs, `n·(n−1)/2` times in all, and
the result is the sum of the invoked kernel values divided by `n·(n−1)/2`. -/
theorem symmetric_mode_spec {α : Type} [Inhabited α] (x y : List α)
    (k : α → α → ℚ) (hlen : y.length = x.length) (hn : 2 ≤ x.length) :
    (∀ i j : ℕ, i < j → j < x.length →
        (kernelTrace x y (pureK k) true).count (i, j) = 1) ∧
    (∀ p ∈ kernelTrace x y (pureK k) true, p.1 < p.2 ∧ p.2 < x.length) ∧
    (kernelTrace x y (pureK k) true).length = x.length * (x.length - 1) / 2 ∧
    compute_decoupled_sum x y (pureK k) true =
      Except.ok (RVal.num
        (((kernelTrace x y (pureK k) true).map fun p =>
            k (x.getD p.1 default) (y.getD p.2 default)).sum /
          ((x.length * (x.length - 1) / 2 : ℕ) : ℚ))) := by
  rw [kernelTrace_pure]
  have hmul : 2 * 1 ≤ x.length * (x.length - 1) := Nat.mul_le_mul hn (by omega)
  have htwo := length_pairSeq_true_mul_two x.length
  refine ⟨?_, ?_, length_pairSeq_true _, ?_⟩
  · intro i j hij hj
    have hm : (i, j) ∈ pairSeq true x.length := mem_pairSeq_true.mpr ⟨hij, hj⟩
    exact count_eq_one_of_nodup_mem (nodup_pairSeq_true _) hm
  · intro p hp
    exact mem_pairSeq_true.mp hp
  · rw [compute_pure_eq]
    have hne : (pairSeq true x.length).length ≠ 0 := by omega
    rw [if_neg hne, length_pairSeq_true]

/-- Witness for C2 at `X = [1,2]`, `Y = [10,20]`, kernel `a+b`. -/
theorem symmetric_mode_spec_witness :
    (∀ i j : ℕ, i < j → j < [(1:ℚ), 2].length →
        (kernelTrace [(1:ℚ), 2] [10, 20] (pureK fun a b => a + b) true).count (i, j) = 1) ∧
    (∀ p ∈ kernelTrace [(1:ℚ), 2] [10, 20] (pureK fun a b => a + b) true,
        p.1 < p.2 ∧ p.2 < [(1:ℚ), 2].length) ∧
    (kernelTrace [(1:ℚ), 2] [10, 20] (pureK fun a b => a + b) true).length
        = [(1:ℚ), 2].length * ([(1:ℚ), 2].length - 1) / 2 ∧
    compute_decoupled_sum [(1:ℚ), 2] [10, 20] (pureK fun a b => a + b) true =
      Except.ok (RVal.num
        (((kernelTrace [(1:ℚ), 2] [10, 20] (pureK fun a b => a + b) true).map fun p =>
            [(1:ℚ), 2].getD p.1 default + [(10:ℚ), 20].getD p.2 default).sum /
          (([(1:ℚ), 2].length * ([(1:ℚ), 2].length - 1) / 2 : ℕ) : ℚ))) :=
  symmetric_mode_spec [(1:ℚ), 2] [10, 20] (fun a b => a + b) (by decide) (by decide)

/-- Claim C3: in asymmetric mode, with equal-length collections of length
`n ≥ 2` and a total kernel, the kernel is invoked exactly once on each ordered
pair `(i, j)` with `i ≠ j`, both below `n`, only on such pairs, `n·(n−1)`
times in all, and the result is the sum of the invoked kernel values divided
by `n·(n−1)`. -/
theorem asymmetric_mode_spec {α : Type} [Inhabited α] (x y : List α)
    (k : α → α → ℚ) (hlen : y.length = x.length) (hn : 2 ≤ x.length) :
    (∀ i j : ℕ, i < x.length → j < x.length → i ≠ j →
        (kernelTrace x y (pureK k) false).count (i, j) = 1) ∧
    (∀ p ∈ kernelTrace x y (pureK k) false,
        p.1 < x.length ∧ p.2 < x.length ∧ p.1 ≠ p.2) ∧
    (kernelTrace x y (pureK k) false).length = x.length * (x.length - 1) ∧
    compute_decoupled_sum x y (pureK k) false =
      Except.ok (RVal.num
        (((kernelTrace x y (pureK k) false).map fun p =>
            k (x.getD p.1 default) (y.getD p.2 default)).sum /
          ((x.length * (x.length - 1) : ℕ) : ℚ))) := by
  rw [kernelTrace_pure]
  have hmul : 2 * 1 ≤ x.length * (x.length - 1) := Nat.mul_le_mul hn (by omega)
  have hlenf := length_pairSeq_false x.length
  refine ⟨?_, ?_, hlenf, ?_⟩
  · intro i j hi hj hij
    have hm : (i, j) ∈ pairSeq false x.length := mem_pairSeq_false.mpr ⟨hi, hj, hij⟩
    exact count_eq_one_of_nodup_mem (nodup_pairSeq_false _) hm
  · intro p hp
    exact mem_pairSeq_false.mp hp
  · rw [compute_pure_eq]
    have hne : (pairSeq false x.length).length ≠ 0 := by omega
    rw [if_neg hne, hlenf]

/-- Witness for C3 at `X = [1,2]`, `Y = [10,20]`, kernel `a+b`. -/
theorem asymmetric_mode_spec_witness :
    (∀ i j : ℕ, i < [(1:ℚ), 2].length → j < [(1:ℚ), 2].length → i ≠ j →
        (kernelTrace [(1:ℚ), 2] [10, 20] (pureK fun a b => a + b) false).count (i, j) = 1) ∧
    (∀ p ∈ kernelTrace [(1:ℚ), 2] [10, 20] (pureK fun a b => a + b) false,
        p.1 < [(1:ℚ), 2].length ∧ p.2 < [(1:ℚ), 2].length ∧ p.1 ≠ p.2) ∧
    (kernelTrace [(1:ℚ), 2] [10, 20] (pureK fun a b => a + b) false).length
        = [(1:ℚ), 2].length * ([(1:ℚ), 2].length - 1) ∧
    compute_decoupled_sum [(1:ℚ), 2] [10, 20] (pureK fun a b => a + b) false =
      Except.ok (RVal.num
        (((kernelTrace [(1:ℚ), 2] [10, 20] (pureK fun a b => a + b) false).map fun p =>
            [(1:ℚ), 2].getD p.1 default + [(10:ℚ), 20].getD p.2 default).sum /
          (([(1:ℚ), 2].length * ([(1:ℚ), 2].length - 1) : ℕ) : ℚ))) :=
  asymmetric_mode_spec [(1:ℚ), 2] [10, 20] (fun a b => a + b) (by decide) (by decide)

/-- Claim C4, counterexample: the kernel `a + b` is symmetric in its two
arguments, yet on `X = [1,2,3]`, `Y = [10,20,30]` the symmetric-mode mean is
28 while the asymmetric-mode mean is 22.  For decoupled collections a
symmetric kernel does not make the mean invariant to the upper-triangular
restriction, because the restriction drops the values `k(X[i], Y[j])` with
`i > j`, which are not the dropped pairs' mirror values. -/
theorem sym_asym_mean_cex :
    (∀ a b : ℚ, a + b = b + a) ∧
    compute_decoupled_sum [(1:ℚ), 2, 3] [10, 20, 30] (pureK fun a b => a + b) true
        = Except.ok (RVal.num 28) ∧
    compute_decoupled_sum [(1:ℚ), 2, 3] [10, 20, 30] (pureK fun a b => a + b) false
        = Except.ok (RVal.num 22) ∧
    RVal.num 28 ≠ RVal.num 22 := by
  have hps : pairSeq true ([(1:ℚ), 2, 3].length) = [(0, 1), (0, 2), (1, 2)] := by
    decide
  have hpa : pairSeq false ([(1:ℚ), 2, 3].length)
      = [(0, 1), (0, 2), (1, 0), (1, 2), (2, 0), (2, 1)] := by
    decide
  refine ⟨fun a b => add_comm a b, ?_, ?_, ?_⟩
  · rw [compute_pure_eq, hps]
    norm_num [List.getD]
  · rw [compute_pure_eq, hpa]
    norm_num [List.getD]
  · intro h
    have : (28 : ℚ) = 22 := RVal.num.inj h
    norm_num at this

/-- Claim C4, amended: the symmetric-mode and asymmetric-mode results agree
whenever the kernel values are symmetric under exchanging the index roles
across the two collections, `k(X[i], Y[j]) = k(X[j], Y[i])` — in particular
whenever `Y = X` with a symmetric kernel.  No factor of 2 is needed: the
all-ordered-pairs sum is then twice the upper-triangular sum and the ordered
count is twice the upper-triangular count. -/
theorem sym_asym_mean_eq_of_swap_symmetric {α : Type} [Inhabited α]
    (x y : List α) (k : α → α → ℚ)
    (hsym : ∀ i j : ℕ, k (x.getD i default) (y.getD j default)
        = k (x.getD j default) (y.getD i default)) :
    compute_decoupled_sum x y (pureK k) true
      = compute_decoupled_sum x y (pureK k) false := by
  rw [compute_pure_eq, compute_pure_eq]
  have hperm := pairSeq_false_perm x.length
  have hlen : (pairSeq false x.length).length
      = 2 * (pairSeq true x.length).length := by
    rw [hperm.length_eq, List.length_append, List.length_map]
    omega
  have hsum : ((pairSeq false x.length).map fun p =>
        k (x.getD p.1 default) (y.getD p.2 default)).sum
      = 2 * ((pairSeq true x.length).map fun p =>
        k (x.getD p.1 default) (y.getD p.2 default)).sum := by
    rw [(hperm.map fun p => k (x.getD p.1 default) (y.getD p.2 default)).sum_eq]
    rw [List.map_append, List.sum_append, List.map_map]
    have hmap : ((pairSeq true x.length).map
        ((fun p => k (x.getD p.1 default) (y.getD p.2 default)) ∘ fun p => (p.2, p.1)))
        = (pairSeq true x.length).map fun p =>
            k (x.getD p.1 default) (y.getD p.2 default) := by
      apply List.map_congr_left
      intro p _
      exact hsym p.2 p.1
    rw [hmap]
    ring
  rcases Nat.eq_zero_or_pos (pairSeq true x.length).length with h0 | hpos
  · rw [hlen, h0, if_pos rfl, if_pos rfl]
  · have h1 : (pairSeq true x.length).length ≠ 0 := by omega
    have h2 : (pairSeq false x.length).length ≠ 0 := by omega
    rw [if_neg h1, if_neg h2, hsum, hlen]
    have hcast : ((2 * (pairSeq true x.length).length : ℕ) : ℚ)
        = 2 * ((pairSeq true x.length).length : ℚ) := by
      push_cast
      ring
    rw [hcast, mul_div_mul_left _ _ (two_ne_zero)]

/-- Witness for the amended C4 at `Y = X = [1,2,3]` with the symmetric kernel
`a + b`. -/
theorem sym_asym_mean_eq_witness :
    compute_decoupled_sum [(1:ℚ), 2, 3] [1, 2, 3] (pureK fun a b => a + b) true
      = compute_decoupled_sum [(1:ℚ), 2, 3] [1, 2, 3] (pureK fun a b => a + b) false :=
  sym_asym_mean_eq_of_swap_symmetric [(1:ℚ), 2, 3] [1, 2, 3]
    (fun a b => a + b) (fun i j => add_comm _ _)

/-- Claim C5 (code behaviour): a batch whose every element is degenerate
(`n = len(X) < 2`, which the claim calls an `InsufficientPairs` failure) does
not make the batch fail: `compute_multiple_decoupled_sums` stores the quiet
not-a-number for each batch index and keeps going, returning a full result
vector and reporting no failing index and no error. -/
theorem batch_nan_continues :
    compute_multiple_decoupled_sums [(1:ℚ)] [[10], [20]]
        (pureK fun a b => a + b) true
      = Except.ok [RVal.nan, RVal.nan] := by
  rfl

/-- Claim C6, counterexample: two runs whose first failing index pairs differ
— `(0, 1)` in the first run, `(0, 2)` in the second — surface the very same
error value.  The surfaced error is the kernel's own error passed through the
unwinding C++ frame; it does not carry the failing index pair. -/
theorem kernel_error_pairless_cex :
    compute_decoupled_sum [(1:ℚ), 1, 1] [5, 0, 5] failK true = Except.error () ∧
    compute_decoupled_sum [(1:ℚ), 1, 1] [5, 5, 0] failK true = Except.error () ∧
    kernelTrace [(1:ℚ), 1, 1] [5, 0, 5] failK true = [(0, 1)] ∧
    kernelTrace [(1:ℚ), 1, 1] [5, 5, 0] failK true = [(0, 1), (0, 2)] :=
  ⟨rfl, rfl, rfl, rfl⟩

/-- Claim C6, amended: if a kernel invocation fails, the aggregate aborts at
that pair — the invoked pairs are the enumerated pairs up to and including the
failing one, and no later pair is evaluated — the call returns only the
kernel's own error (which carries no index pair), and the partial sum is
discarded (no numeric value is returned in any form). -/
theorem kernel_failure_aborts {α ε : Type} [Inhabited α] (x y : List α)
    (K : α → α → Except ε ℚ) (symmetric : Bool) (e : ε)
    (hf : compute_decoupled_sum x y K symmetric = Except.error e) :
    ∃ ps₁ i j ps₂,
      pairSeq symmetric x.length = ps₁ ++ (i, j) :: ps₂ ∧
      kernelTrace x y K symmetric = ps₁ ++ [(i, j)] ∧
      K (x.getD i default) (y.getD j default) = Except.error e ∧
      ∀ p ∈ ps₁, ∃ v, K (x.getD p.1 default) (y.getD p.2 default) = Except.ok v := by
  unfold compute_decoupled_sum at hf
  cases hr : (runPairs (itemK K x y) (pairSeq symmetric x.length) 0 0).2 with
  | ok p =>
    rw [hr] at hf
    obtain ⟨t, c⟩ := p
    simp at hf
  | error e' =>
    rw [hr] at hf
    injection hf with he
    subst he
    have hrun : runPairs (itemK K x y) (pairSeq symmetric x.length) 0 0
        = ((runPairs (itemK K x y) (pairSeq symmetric x.length) 0 0).1,
            Except.error e') := by
      rw [← hr]
    obtain ⟨ps₁, i, j, ps₂, hps, htr, hK, hok⟩ :=
      runPairs_error_decomp (itemK K x y) _ 0 0 e' _ hrun
    exact ⟨ps₁, i, j, ps₂, hps, htr, hK, hok⟩

/-- Witness for the amended C6: the failing run on `Y = [5, 0, 5]` decomposes
as the theorem states. -/
theorem kernel_failure_aborts_witness :
    ∃ ps₁ i j ps₂,
      pairSeq true ([(1:ℚ), 1, 1].length) = ps₁ ++ (i, j) :: ps₂ ∧
      kernelTrace [(1:ℚ), 1, 1] [5, 0, 5] failK true = ps₁ ++ [(i, j)] ∧
      failK ([(1:ℚ), 1, 1].getD i default) ([(5:ℚ), 0, 5].getD j default)
          = Except.error () ∧
      ∀ p ∈ ps₁, ∃ v,
        failK ([(1:ℚ), 1, 1].getD p.1 default) ([(5:ℚ), 0, 5].getD p.2 default)
          = Except.ok v :=
  kernel_failure_aborts [(1:ℚ), 1, 1] [5, 0, 5] failK true () rfl

/-- Claim C7: a batch call that returns does so with one result per batch
element, in input order: the output length equals the input length and the
entry at each index `b` is exactly the single-aggregate result for `Ys[b]`. -/
theorem batch_alignment {α ε : Type} [Inhabited α] (x : List α)
    (ys : List (List α)) (K : α → α → Except ε ℚ) (symmetric : Bool)
    (out : List RVal)
    (h : compute_multiple_decoupled_sums x ys K symmetric = Except.ok out) :
    out.length = ys.length ∧
    ∀ b, b < ys.length →
      compute_decoupled_sum x (ys.getD b []) K symmetric
        = Except.ok (out.getD b RVal.nan) := by
  induction ys generalizing out with
  | nil =>
    unfold compute_multiple_decoupled_sums at h
    rw [List.mapM_nil] at h
    injection h with h'
    subst h'
    exact ⟨rfl, fun b hb => absurd hb (Nat.not_lt_zero b)⟩
  | cons y ys ih =>
    unfold compute_multiple_decoupled_sums at h
    rw [List.mapM_cons] at h
    cases hy : compute_decoupled_sum x y K symmetric with
    | error e =>
      rw [hy] at h
      simp [Bind.bind, Except.bind] at h
    | ok v =>
      rw [hy] at h
      cases hys : ys.mapM (fun y => compute_decoupled_sum x y K symmetric) with
      | error e =>
        rw [hys] at h
        simp [Bind.bind, Except.bind] at h
      | ok vs =>
        rw [hys] at h
        simp only [Bind.bind, Except.bind, Pure.pure, Except.pure] at h
        injection h with h'
        subst h'
        obtain ⟨hlen, hidx⟩ := ih vs hys
        refine ⟨by simp [hlen], ?_⟩
        intro b hb
        cases b with
        | zero =>
          simpa using hy
        | succ b =>
          simp only [List.getD_cons_succ]
          exact hidx b (by simpa using hb)

/-- Witness for C7 on a two-element batch whose aggregates both return. -/
theorem batch_alignment_witness :
    ([RVal.nan, RVal.nan] : List RVal).length = ([[(10:ℚ)], [20]] : List (List ℚ)).length ∧
    ∀ b, b < ([[(10:ℚ)], [20]] : List (List ℚ)).length →
      compute_decoupled_sum [(1:ℚ)] ([[(10:ℚ)], [20]].getD b []) (pureK fun a b => a + b) true
        = Except.ok (([RVal.nan, RVal.nan] : List RVal).getD b RVal.nan) :=
  batch_alignment [(1:ℚ)] [[10], [20]] (pureK fun a b => a + b) true
    [RVal.nan, RVal.nan] rfl

/-- Claim C8: both loop bounds come from `len(X)` alone — every enumerated
index pair lies below `len(X)` in both components, so when
`len(X) ≤ len(Y)` every access of `Y` is in bounds; and surplus elements of
`Y` at indices at or beyond `len(X)` are never accessed: appending anything to
such a `Y` changes neither the result nor the invoked pairs. -/
theorem loop_bounds_from_x {α ε : Type} [Inhabited α] (x y z : List α)
    (K : α → α → Except ε ℚ) (symmetric : Bool) (h : x.length ≤ y.length) :
    (∀ p ∈ pairSeq symmetric x.length, p.1 < x.length ∧ p.2 < x.length) ∧
    (∀ p ∈ kernelTrace x y K symmetric, p.2 < y.length) ∧
    compute_decoupled_sum x (y ++ z) K symmetric
      = compute_decoupled_sum x y K symmetric ∧
    kernelTrace x (y ++ z) K symmetric = kernelTrace x y K symmetric := by
  have hbound : ∀ p ∈ pairSeq symmetric x.length,
      p.1 < x.length ∧ p.2 < x.length := by
    intro p hp
    cases symmetric
    · obtain ⟨h1, h2, _⟩ := mem_pairSeq_false.mp hp
      exact ⟨h1, h2⟩
    · obtain ⟨h1, h2⟩ := mem_pairSeq_true.mp hp
      exact ⟨by omega, h2⟩
  have hcong : ∀ p ∈ pairSeq symmetric x.length,
      itemK K x (y ++ z) p.1 p.2 = itemK K x y p.1 p.2 := by
    intro p hp
    unfold itemK
    rw [List.getD_append y z default p.2 (lt_of_lt_of_le (hbound p hp).2 h)]
  have hrw := runPairs_congr (itemK K x (y ++ z)) (itemK K x y) _ hcong 0 0
  refine ⟨hbound, ?_, ?_, ?_⟩
  · intro p hp
    have hb := hbound p (runPairs_fst_subset (itemK K x y) _ 0 0 p hp)
    omega
  · unfold compute_decoupled_sum
    rw [hrw]
  · unfold kernelTrace
    rw [hrw]

/-- Witness for C8 with `X = [1,2]`, `Y = [10,20]` and surplus `[99]`. -/
theorem loop_bounds_from_x_witness :
    (∀ p ∈ pairSeq true ([(1:ℚ), 2].length),
        p.1 < [(1:ℚ), 2].length ∧ p.2 < [(1:ℚ), 2].length) ∧
    (∀ p ∈ kernelTrace [(1:ℚ), 2] [10, 20] (pureK fun a b => a + b) true,
        p.2 < [(10:ℚ), 20].length) ∧
    compute_decoupled_sum [(1:ℚ), 2] ([10, 20] ++ [99]) (pureK fun a b => a + b) true
      = compute_decoupled_sum [(1:ℚ), 2] [10, 20] (pureK fun a b => a + b) true ∧
    kernelTrace [(1:ℚ), 2] ([10, 20] ++ [99]) (pureK fun a b => a + b) true
      = kernelTrace [(1:ℚ), 2] [10, 20] (pureK fun a b => a + b) true :=
  loop_bounds_from_x [(1:ℚ), 2] [10, 20] [99] (pureK fun a b => a + b) true
    (by decide)

/-- Claim C9: the invoked index pairs form a deterministic sequence — equal to
the mode's canonical enumeration, a pure function of the mode and `len(X)`, so
repeated calls with identical inputs invoke the kernel on the same pairs in
the same order — sorted with the outer index ascending and the inner index
ascending within one outer index, and obeying the mode's constraint
(`j > i` in symmetric mode; `j ≠ i`, both below `len(X)`, in asymmetric
mode). -/
theorem enumeration_deterministic {α : Type} [Inhabited α] (x y : List α)
    (k : α → α → ℚ) (symmetric : Bool) (hlen : y.length = x.length) :
    kernelTrace x y (pureK k) symmetric = pairSeq symmetric x.length ∧
    (kernelTrace x y (pureK k) symmetric).Pairwise
      (fun p q => p.1 < q.1 ∨ (p.1 = q.1 ∧ p.2 < q.2)) ∧
    (∀ p ∈ kernelTrace x y (pureK k) true, p.1 < p.2 ∧ p.2 < x.length) ∧
    (∀ p ∈ kernelTrace x y (pureK k) false,
        p.1 < x.length ∧ p.2 < x.length ∧ p.1 ≠ p.2) := by
  refine ⟨kernelTrace_pure x y k symmetric, ?_, ?_, ?_⟩
  · rw [kernelTrace_pure]
    exact pairwise_lex_pairSeq symmetric x.length
  · rw [kernelTrace_pure]
    intro p hp
    exact mem_pairSeq_true.mp hp
  · rw [kernelTrace_pure]
    intro p hp
    exact mem_pairSeq_false.mp hp

/-- Witness for C9 at `X = [1,2]`, `Y = [10,20]`, symmetric mode. -/
theorem enumeration_deterministic_witness :
    kernelTrace [(1:ℚ), 2] [10, 20] (pureK fun a b => a + b) true
        = pairSeq true ([(1:ℚ), 2].length) ∧
    (kernelTrace [(1:ℚ), 2] [10, 20] (pureK fun a b => a + b) true).Pairwise
      (fun p q => p.1 < q.1 ∨ (p.1 = q.1 ∧ p.2 < q.2)) ∧
    (∀ p ∈ kernelTrace [(1:ℚ), 2] [10, 20] (pureK fun a b => a + b) true,
        p.1 < p.2 ∧ p.2 < [(1:ℚ), 2].length) ∧
    (∀ p ∈ kernelTrace [(1:ℚ), 2] [10, 20] (pureK fun a b => a + b) false,
        p.1 < [(1:ℚ), 2].length ∧ p.2 < [(1:ℚ), 2].length ∧ p.1 ≠ p.2) :=
  enumeration_deterministic [(1:ℚ), 2] [10, 20] (fun a b => a + b) true (by decide)

/-- Claim C10: on `X = [1,2,3]`, `Y = [10,20,30]` with kernel `a + b` in
symmetric mode, exactly the pairs `(0,1)`, `(0,2)`, `(1,2)` are evaluated, the
kernel values are `21`, `31`, `32`, and the result is `84 / 3 = 28`. -/
theorem example1_symmetric :
    kernelTrace [(1:ℚ), 2, 3] [10, 20, 30] (pureK fun a b => a + b) true
        = [(0, 1), (0, 2), (1, 2)] ∧
    ((kernelTrace [(1:ℚ), 2, 3] [10, 20, 30] (pureK fun a b => a + b) true).map
        fun p => [(1:ℚ), 2, 3].getD p.1 default + [(10:ℚ), 20, 30].getD p.2 default)
        = [21, 31, 32] ∧
    compute_decoupled_sum [(1:ℚ), 2, 3] [10, 20, 30] (pureK fun a b => a + b) true
        = Except.ok (RVal.num 28) := by
  have hps : pairSeq true ([(1:ℚ), 2, 3].length) = [(0, 1), (0, 2), (1, 2)] := by
    decide
  refine ⟨?_, ?_, ?_⟩
  · rw [kernelTrace_pure, hps]
  · rw [kernelTrace_pure, hps]
    norm_num [List.getD]
  · rw [compute_pure_eq, hps]
    norm_num [List.getD]
